import Mathlib

/-!
Verification of the backup/restore reconciliation logic of `dentabase`
(`src/scripts/backup.js` and the extended variant with in-place updates).

Shallow embedding conventions:
* A MongoDB document is modelled as an optional identifier (the string form
  of `_id`; `none` when the document has no `_id` field) together with the
  ordered list of its non-identifier fields.  Field values are kept as their
  serialized (JSON) text, which makes `JSON.stringify` equality coincide with
  structural equality of the embedded document (`_id` is serialized in its
  canonical first position by the store, so structural equality of the pair
  matches string equality of the serializations).
* `doc._id?.toString()` is the `_id` component itself; `filter(Boolean)`
  drops `undefined` and the empty string (the two falsy possibilities here).
* The store collaborator's operations (`insertMany`, `deleteMany` with an
  `$in` query, `updateOne` with `$set`) are embedded as explicit state
  transformers on the collection's document list: `insertMany` appends,
  `deleteMany` filters out the listed identifiers, and `updateOne`/`$set`
  rewrites the listed fields of the first matching document, leaving fields
  not mentioned by the `$set` payload intact.
-/

namespace Dentabase

/-- A document: string form of its `_id` (if present) and its ordered
non-identifier fields, each field value kept as serialized text. -/
structure Doc where
  _id : Option String
  fields : List (String × String)
deriving DecidableEq, Repr

/-- Boolean truthiness of `doc._id?.toString()`: `undefined` and `""` are
falsy, every other string is truthy. -/
def truthyId : Option String → Bool
  | none => false
  | some s => s != ""

/-- `data.map(doc => doc._id?.toString()).filter(Boolean)` from `loadBackup`:
the list of truthy identifier strings of a document list. -/
def filterIds (docs : List Doc) : List String :=
  (docs.map Doc._id).filterMap (fun o => if truthyId o then o else none)

/-- `ids.includes(doc._id?.toString())`: JavaScript `includes` never finds
`undefined` in a list of strings. -/
def includesOpt (ids : List String) : Option String → Bool
  | none => false
  | some s => ids.contains s

/-- `toInsert = newData.filter(doc => !existingIds.includes(doc._id?.toString()))`. -/
def toInsert (newData existingData : List Doc) : List Doc :=
  newData.filter (fun d => !(includesOpt (filterIds existingData) d._id))

/-- `toDelete = existingData.filter(doc => !newIds.includes(doc._id?.toString()))`. -/
def toDelete (newData existingData : List Doc) : List Doc :=
  existingData.filter (fun d => !(includesOpt (filterIds newData) d._id))

/-- `toUpdate = newData.filter(newDoc => { const match = existingData.find(e =>
e._id?.toString() === newDoc._id?.toString()); return match &&
JSON.stringify(match) !== JSON.stringify(newDoc); })`.  Strict equality of
`_id?.toString()` values is `Option String` equality (`undefined === undefined`
holds), and serialization equality is structural equality of `Doc`. -/
def toUpdate (newData existingData : List Doc) : List Doc :=
  newData.filter (fun nd =>
    match existingData.find? (fun e => e._id == nd._id) with
    | none => false
    | some m => m != nd)

/-- A store operation issued by `loadBackup` against one collection. -/
inductive Op where
  | insertMany (docs : List Doc)
  | deleteMany (ids : List (Option String))
  | updateOne (id : Option String) (setFields : List (String × String))
deriving DecidableEq, Repr

/-- The operations `loadBackup` (extended variant, `src/unnamed/part_000`)
issues for one collection: nothing when all three diff sets are empty
(`continue`), otherwise `insertMany toInsert` when non-empty, then
`deleteMany` of `toDelete`'s raw identifiers when non-empty, then one
`updateOne({_id}, {$set: fields})` per `toUpdate` document, where `fields`
is the document minus its `_id` property. -/
def reconcileOps (newData existingData : List Doc) : List Op :=
  let ti := toInsert newData existingData
  let td := toDelete newData existingData
  let tu := toUpdate newData existingData
  if ti.isEmpty && td.isEmpty && tu.isEmpty then []
  else
    (if ti.isEmpty then [] else [Op.insertMany ti])
      ++ (if td.isEmpty then [] else [Op.deleteMany (td.map Doc._id)])
      ++ tu.map (fun d => Op.updateOne d._id d.fields)

/-- `$set` of a single field: overwrite the field in place when the key is
already present, otherwise append it. -/
def setField (fields : List (String × String)) (kv : String × String) :
    List (String × String) :=
  if fields.any (fun p => p.1 == kv.1) then
    fields.map (fun p => if p.1 == kv.1 then (p.1, kv.2) else p)
  else fields ++ [kv]

/-- `$set` of a whole payload, field by field. -/
def applySet (fields payload : List (String × String)) : List (String × String) :=
  payload.foldl setField fields

/-- `updateOne({_id: queryId}, {$set: payload})`: update the first document
whose identifier matches; in the string model the `ObjectId` round-trip
(`ObjectId.isValid(_id) ? new ObjectId(_id) : _id`) is the identity on the
string form of the identifier. -/
def applyUpdateOne (docs : List Doc) (i : Option String)
    (payload : List (String × String)) : List Doc :=
  match docs with
  | [] => []
  | d :: rest =>
    if d._id == i then ⟨d._id, applySet d.fields payload⟩ :: rest
    else d :: applyUpdateOne rest i payload

/-- Effect of one store operation on the live collection. -/
def applyOp (docs : List Doc) : Op → List Doc
  | Op.insertMany ds => docs ++ ds
  | Op.deleteMany ids => docs.filter (fun d => !(ids.contains d._id))
  | Op.updateOne i payload => applyUpdateOne docs i payload

/-- Effect of a sequence of store operations. -/
def applyOps (docs : List Doc) (ops : List Op) : List Doc :=
  ops.foldl applyOp docs

/-- One reconciliation pass of the extended `loadBackup` over one collection:
the operations issued and the resulting live document list. -/
def runReconcile (newData existingData : List Doc) : List Op × List Doc :=
  let ops := reconcileOps newData existingData
  (ops, applyOps existingData ops)

/-- `toInsert` of the reduced `loadBackup` in `src/scripts/backup.js`
(same filter text as the extended variant). -/
def toInsertB (newData existingData : List Doc) : List Doc :=
  newData.filter (fun d => !(includesOpt (filterIds existingData) d._id))

/-- `toDelete` of the reduced `loadBackup` in `src/scripts/backup.js`. -/
def toDeleteB (newData existingData : List Doc) : List Doc :=
  existingData.filter (fun d => !(includesOpt (filterIds newData) d._id))

/-- Operations issued by the reduced `loadBackup` of `src/scripts/backup.js`:
`continue` when `toInsert` and `toDelete` are both empty, otherwise the bulk
insert and bulk delete (no update pass). -/
def reconcileOpsB (newData existingData : List Doc) : List Op :=
  let ti := toInsertB newData existingData
  let td := toDeleteB newData existingData
  if ti.isEmpty && td.isEmpty then []
  else
    (if ti.isEmpty then [] else [Op.insertMany ti])
      ++ (if td.isEmpty then [] else [Op.deleteMany (td.map Doc._id)])

/-- Whether an operation is one of the two bulk operations (insert/delete). -/
def isBulkOp : Op → Bool
  | Op.insertMany _ => true
  | Op.deleteMany _ => true
  | Op.updateOne _ _ => false

/-- A calendar instant as exposed by the JavaScript `Date` accessors used in
`getTimestamp` (`getMonth` is 0-based: January is `0`, December is `11`). -/
structure DateT where
  getMonth : Nat
  getDate : Nat
  getFullYear : Nat
  getHours : Nat
  getMinutes : Nat
  getSeconds : Nat
deriving DecidableEq, Repr

/-- `String(n).padStart(2, '0')`. -/
def pad2 (n : Nat) : String :=
  String.mk (List.replicate (2 - (toString n).length) '0') ++ toString n

/-- `getTimestamp()` from `backup.js`:
`` `backup_${mm}${dd}${yyyy}_${hh}${min}${ss}` `` with `mm = getMonth() + 1`
and each two-digit component zero-padded; the year is not padded. -/
def getTimestamp (now : DateT) : String :=
  "backup_" ++ pad2 (now.getMonth + 1) ++ pad2 now.getDate
    ++ toString now.getFullYear ++ "_" ++ pad2 now.getHours
    ++ pad2 now.getMinutes ++ pad2 now.getSeconds

/-- Chronological strict order on instants: lexicographic on year, month,
day, hour, minute, second. -/
abbrev chronoLT (a b : DateT) : Prop :=
  a.getFullYear < b.getFullYear ∨ (a.getFullYear = b.getFullYear ∧
    (a.getMonth < b.getMonth ∨ (a.getMonth = b.getMonth ∧
      (a.getDate < b.getDate ∨ (a.getDate = b.getDate ∧
        (a.getHours < b.getHours ∨ (a.getHours = b.getHours ∧
          (a.getMinutes < b.getMinutes ∨ (a.getMinutes = b.getMinutes ∧
            a.getSeconds < b.getSeconds)))))))))

/-- Ranges of the `Date` accessors for a real instant (`getMonth` 0–11,
`getDate` 1–31, `getHours` 0–23, `getMinutes`/`getSeconds` 0–59). -/
abbrev validDate (d : DateT) : Prop :=
  d.getMonth < 12 ∧ d.getDate ≤ 31 ∧ d.getHours < 24 ∧
    d.getMinutes < 60 ∧ d.getSeconds < 60

/-- One entry of `fs.readdir(baseDir, { withFileTypes: true })`. -/
structure DirEnt where
  name : String
  isDir : Bool
deriving DecidableEq, Repr

/-- `name.startsWith(p)`, embedded at code-unit level: the characters of `p`
are a prefix of the characters of `name`. -/
def jsStartsWith (s p : String) : Bool :=
  p.toList.isPrefixOf s.toList

/-- `entries.filter(d => d.isDirectory() && d.name.startsWith('backup_')).map(d => d.name)`. -/
def backupDirsOf (entries : List DirEnt) : List String :=
  (entries.filter (fun e => e.isDir && jsStartsWith e.name "backup_")).map DirEnt.name

/-- `backupDirs.sort()` followed by `backupDirs[backupDirs.length - 1]`, with
the empty-result branch (`'No backups found.'`, plain return) mapped to
`none`.  JavaScript's default `sort()` is the code-unit lexicographic order,
embedded here as a stable insertion sort by `≤` on strings. -/
def selectLatest (entries : List DirEnt) : Option String :=
  let backupDirs := backupDirsOf entries
  if backupDirs.isEmpty then none
  else (backupDirs.insertionSort (fun a b => a.toList ≤ b.toList)).getLast?

/-- One file of a snapshot directory, together with what `fs.readJson` would
return for it: either a deserialization error or the decoded document list. -/
structure CollFile where
  name : String
  content : Except String (List Doc)

/-- `path.extname`: the suffix starting at the last dot of the (slash-free)
file name; empty when there is no dot or when the last dot is the name's
first character (Node treats such names as extensionless dotfiles). -/
def extname (s : String) : String :=
  let cs := s.toList
  let tailLen := (cs.reverse.takeWhile (fun c => c != '.')).length
  if tailLen = cs.length then ""
  else if tailLen + 1 = cs.length then ""
  else String.mk ('.' :: (cs.reverse.takeWhile (fun c => c != '.')).reverse)

/-- `path.basename(file, '.json')`: the name with a trailing `.json` removed
(only called on names whose `extname` is `.json`, which are longer than the
extension itself). -/
def basenameJson (s : String) : String :=
  if ".json".toList.isSuffixOf s.toList && s != ".json" then
    String.mk (s.toList.take (s.toList.length - 5))
  else s

/-- The per-file loop of `loadBackup`: skip files without the `.json`
extension; on a `readJson` failure the error propagates (the loop stops, the
operations already issued stand); otherwise reconcile the decoded document
set against the live collection named after the file and accumulate the
issued operations tagged with the collection name. -/
def processFiles (live : String → List Doc) : List CollFile → List (String × Op) × Option String
  | [] => ([], none)
  | f :: rest =>
    if extname f.name == ".json" then
      match f.content with
      | Except.error e => ([], some e)
      | Except.ok newData =>
        let coll := basenameJson f.name
        let ops := (reconcileOps newData (live coll)).map (fun o => (coll, o))
        let r := processFiles live rest
        (ops ++ r.1, r.2)
    else processFiles live rest

/-- The whole `loadBackup` run: select the latest snapshot directory; when
none exists, report informationally and finish with no operations and no
error; otherwise process the directory's files.  `readDir` embeds
`fs.readdir(backupDir)` plus the per-file `fs.readJson` results. -/
def loadBackup (entries : List DirEnt) (readDir : String → List CollFile)
    (live : String → List Doc) : List (String × Op) × Option String :=
  match selectLatest entries with
  | none => ([], none)
  | some dir => processFiles live (readDir dir)

/-! ### Shared lemmas about the diff classification -/

theorem truthyId_some_iff {o : Option String} {s : String} :
    ((if truthyId o then o else none) = some s) ↔ o = some s ∧ s ≠ "" := by
  cases o with
  | none => simp [truthyId]
  | some t =>
    by_cases ht : t = ""
    · subst ht; simp only [truthyId, bne_self_eq_false, if_false]
      simp only [Option.some.injEq, ne_eq]
      constructor
      · intro h; cases h
      · rintro ⟨rfl, h⟩; exact absurd rfl h
    · simp only [truthyId, bne_iff_ne, ne_eq, ht, not_false_eq_true, if_true,
        Option.some.injEq]
      constructor
      · rintro rfl; exact ⟨rfl, ht⟩
      · rintro ⟨rfl, _⟩; rfl

theorem mem_filterIds {docs : List Doc} {s : String} :
    s ∈ filterIds docs ↔ (∃ d ∈ docs, d._id = some s) ∧ s ≠ "" := by
  simp only [filterIds, List.mem_filterMap, List.mem_map]
  constructor
  · rintro ⟨o, ⟨d, hd, rfl⟩, hf⟩
    rcases truthyId_some_iff.mp hf with ⟨h1, h2⟩
    exact ⟨⟨d, hd, h1⟩, h2⟩
  · rintro ⟨⟨d, hd, h1⟩, h2⟩
    exact ⟨d._id, ⟨d, hd, rfl⟩, truthyId_some_iff.mpr ⟨h1, h2⟩⟩

theorem includesOpt_some_iff {ids : List String} {s : String} :
    includesOpt ids (some s) = true ↔ s ∈ ids := by
  simp [includesOpt, List.elem_iff]

@[simp] theorem includesOpt_none (ids : List String) : includesOpt ids none = false := rfl

theorem nodupIds_tail {a : Doc} {t : List Doc}
    (hnd : ((a :: t).filterMap Doc._id).Nodup) : (t.filterMap Doc._id).Nodup := by
  rw [List.filterMap_cons] at hnd
  cases ha : a._id with
  | none => rwa [ha] at hnd
  | some j => rw [ha] at hnd; exact hnd.of_cons

theorem nodupIds_head_not_mem {a : Doc} {t : List Doc} {i : String}
    (hnd : ((a :: t).filterMap Doc._id).Nodup) (ha : a._id = some i) :
    ∀ x ∈ t, x._id ≠ some i := by
  intro x hx hxi
  rw [List.filterMap_cons, ha] at hnd
  rcases List.nodup_cons.mp hnd with ⟨hni, _⟩
  exact hni (List.mem_filterMap.mpr ⟨x, hx, hxi⟩)

theorem nodupIds_eq_of_mem {l : List Doc} {x y : Doc} {i : String}
    (hnd : (l.filterMap Doc._id).Nodup)
    (hx : x ∈ l) (hxi : x._id = some i) (hy : y ∈ l) (hyi : y._id = some i) :
    x = y := by
  induction l with
  | nil => cases hx
  | cons a t ih =>
    rcases List.mem_cons.mp hx with rfl | hxt
    · rcases List.mem_cons.mp hy with rfl | hyt
      · rfl
      · exact absurd hyi (nodupIds_head_not_mem hnd hxi y hyt)
    · rcases List.mem_cons.mp hy with rfl | hyt
      · exact absurd hxi (nodupIds_head_not_mem hnd hyi x hxt)
      · exact ih (nodupIds_tail hnd) hxt hyt

theorem filter_idPred_eq_singleton {l : List Doc} {d : Doc} {i : String} (q : Doc → Bool)
    (himp : ∀ x, q x = true → x._id = some i)
    (hnd : (l.filterMap Doc._id).Nodup)
    (hmem : d ∈ l) (hid : d._id = some i) (hq : q d = true) :
    l.filter q = [d] := by
  induction l with
  | nil => cases hmem
  | cons a t ih =>
    rcases List.mem_cons.mp hmem with rfl | hdt
    · rw [List.filter_cons_of_pos hq, List.cons.injEq]
      refine ⟨rfl, ?_⟩
      rw [List.filter_eq_nil_iff]
      intro x hx hqx
      exact nodupIds_head_not_mem hnd hid x hx (himp x hqx)
    · have hqa : q a = false := by
        cases hqa : q a with
        | false => rfl
        | true => exact absurd hid (nodupIds_head_not_mem hnd (himp a hqa) d hdt)
      rw [List.filter_cons_of_neg (by simp [hqa])]
      exact ih (nodupIds_tail hnd) hdt

theorem find_idEq_of_nodup {l : List Doc} {d : Doc} {i : String}
    (hnd : (l.filterMap Doc._id).Nodup) (hmem : d ∈ l) (hid : d._id = some i) :
    l.find? (fun x => x._id == some i) = some d := by
  induction l with
  | nil => cases hmem
  | cons a t ih =>
    rcases List.mem_cons.mp hmem with rfl | hdt
    · rw [List.find?_cons_of_pos]
      simp [hid]
    · by_cases hai : a._id = some i
      · exact absurd hid (nodupIds_head_not_mem hnd hai d hdt)
      · rw [List.find?_cons_of_neg _ (by simp [hai])]
        exact ih (nodupIds_tail hnd) hdt

theorem mem_toInsert {n e : List Doc} {d : Doc} :
    d ∈ toInsert n e ↔ d ∈ n ∧ includesOpt (filterIds e) d._id = false := by
  simp [toInsert, List.mem_filter]

theorem mem_toDelete {n e : List Doc} {d : Doc} :
    d ∈ toDelete n e ↔ d ∈ e ∧ includesOpt (filterIds n) d._id = false := by
  simp [toDelete, List.mem_filter]

theorem mem_toUpdate {n e : List Doc} {d : Doc} :
    d ∈ toUpdate n e ↔
      d ∈ n ∧ ∃ m, e.find? (fun x => x._id == d._id) = some m ∧ m ≠ d := by
  simp only [toUpdate, List.mem_filter]
  refine and_congr_right fun _ => ?_
  cases hf : e.find? (fun x => x._id == d._id) with
  | none => simp [hf]
  | some m =>
    simp only [hf, bne_iff_ne, ne_eq, Option.some.injEq]
    constructor
    · intro h; exact ⟨m, rfl, h⟩
    · rintro ⟨m', rfl, h⟩; exact h

/-- `reconcileOps` written without the leading all-empty guard: when all three
diff sets are empty the right-hand side is also empty, so the `continue`
branch coincides with issuing nothing. -/
theorem reconcileOps_eq (n e : List Doc) :
    reconcileOps n e =
      (if (toInsert n e).isEmpty then [] else [Op.insertMany (toInsert n e)])
        ++ (if (toDelete n e).isEmpty then [] else
              [Op.deleteMany ((toDelete n e).map Doc._id)])
        ++ (toUpdate n e).map (fun d => Op.updateOne d._id d.fields) := by
  unfold reconcileOps
  cases h1 : (toInsert n e).isEmpty <;> cases h2 : (toDelete n e).isEmpty <;>
    cases h3 : (toUpdate n e).isEmpty <;>
      simp_all [List.isEmpty_iff]

/-! ### Claim C7 -/

/-- C7 counterexample: the claim says a document lacking an identifier is
excluded from all three classifications and gets no store operation; but for
an imported document without `_id` the membership test
`existingIds.includes(undefined)` is false, so the document lands in
`toInsert` and is bulk-inserted. -/
theorem c7_missing_id_counterexample :
    Doc.mk none [("name", "x")] ∈ toInsert [Doc.mk none [("name", "x")]] [] ∧
    Op.insertMany [Doc.mk none [("name", "x")]]
      ∈ reconcileOps [Doc.mk none [("name", "x")]] [] := by
  constructor <;> decide

/-- C7 (amended): a document lacking an identifier is excluded from the
identifier lists (`filter(Boolean)`), but not from the classifications: an
imported document without identifier is always in `toInsert`, a live
document without identifier is always in `toDelete`, and an imported
document without identifier is in `toUpdate` exactly when the first live
document without identifier exists and differs from it. -/
theorem c7_missing_id_classified (n e : List Doc) (d : Doc) (hd : d._id = none) :
    (d ∈ n → d ∈ toInsert n e) ∧
    (d ∈ e → d ∈ toDelete n e) ∧
    (d ∈ n → (d ∈ toUpdate n e ↔
      ∃ m, e.find? (fun x => x._id == (none : Option String)) = some m ∧ m ≠ d)) := by
  refine ⟨fun hn => ?_, fun he => ?_, fun hn => ?_⟩
  · exact mem_toInsert.mpr ⟨hn, by rw [hd]; rfl⟩
  · exact mem_toDelete.mpr ⟨he, by rw [hd]; rfl⟩
  · rw [mem_toUpdate, hd]
    simp [hn]

/-- C7 witness: the amended statement evaluated on a one-document snapshot
and an empty live set. -/
theorem c7_missing_id_classified_witness :
    Doc.mk none [("name", "x")] ∈ toInsert [Doc.mk none [("name", "x")]] [] :=
  (c7_missing_id_classified [Doc.mk none [("name", "x")]] [] _ rfl).1 (by decide)

/-! ### Claim C8 -/

/-- C8: when no entry of the root directory is a subdirectory whose name
starts with `backup_`, `loadBackup` reports the empty result informationally
(`'No backups found.'`) and returns successfully: no store operation is
issued and no error is produced. -/
theorem c8_no_backups_no_ops (entries : List DirEnt) (readDir : String → List CollFile)
    (live : String → List Doc)
    (h : ∀ e ∈ entries, e.isDir = false ∨ jsStartsWith e.name "backup_" = false) :
    loadBackup entries readDir live = ([], none) := by
  have hfil : entries.filter (fun e => e.isDir && jsStartsWith e.name "backup_") = [] := by
    rw [List.filter_eq_nil_iff]
    intro e he
    rcases h e he with h1 | h1 <;> simp [h1]
  unfold loadBackup selectLatest backupDirsOf
  rw [hfil]
  rfl

/-- C8 witness: a root with one non-matching directory and one matching name
that is a file, not a directory. -/
theorem c8_no_backups_no_ops_witness :
    loadBackup [⟨"notbackup", true⟩, ⟨"backup_10282025_023811", false⟩]
      (fun _ => []) (fun _ => []) = ([], none) :=
  c8_no_backups_no_ops _ _ _ (by decide)

/-! ### Claim C9 -/

/-- C9: if every `.json` file before `f` deserializes cleanly and `f` (a
`.json` file) fails to deserialize, the per-file loop returns exactly the
operations of the earlier files together with `f`'s error, unmodified: no
operation is issued for `f`'s collection and no later file is processed. -/
theorem c9_deserialization_error_aborts (live : String → List Doc)
    (pre post : List CollFile) (f : CollFile) (opsPre : List (String × Op)) (e : String)
    (h1 : processFiles live pre = (opsPre, none))
    (h2 : extname f.name = ".json")
    (h3 : f.content = Except.error e) :
    processFiles live (pre ++ f :: post) = (opsPre, some e) := by
  have hcons : ∀ (g : CollFile) (rest : List CollFile),
      processFiles live (g :: rest) =
        if extname g.name == ".json" then
          match g.content with
          | Except.error err => ([], some err)
          | Except.ok newData =>
            ((reconcileOps newData (live (basenameJson g.name))).map
                (fun o => (basenameJson g.name, o)) ++ (processFiles live rest).1,
              (processFiles live rest).2)
        else processFiles live rest := fun g rest => rfl
  induction pre generalizing opsPre with
  | nil =>
    have h0 : opsPre = [] := by
      simpa using (congrArg Prod.fst h1).symm
    subst h0
    rw [List.nil_append, hcons, if_pos (by simp [h2]), h3]
  | cons g pre ih =>
    rw [hcons] at h1
    rw [List.cons_append, hcons]
    by_cases hg : extname g.name = ".json"
    · rw [if_pos (by simp [hg])] at h1 ⊢
      cases hc : g.content with
      | error eg =>
        rw [hc] at h1
        exact absurd (congrArg Prod.snd h1) (by simp)
      | ok docs =>
        rw [hc] at h1
        dsimp only at h1 ⊢
        have hsnd : (processFiles live pre).2 = none := by
          simpa using congrArg Prod.snd h1
        have hfst : (reconcileOps docs (live (basenameJson g.name))).map
            (fun o => (basenameJson g.name, o)) ++ (processFiles live pre).1 = opsPre := by
          simpa using congrArg Prod.fst h1
        have hstep : processFiles live (pre ++ f :: post) =
            ((processFiles live pre).1, some e) :=
          ih _ (by rw [Prod.ext_iff]; exact ⟨rfl, hsnd⟩)
        rw [hstep, ← hfst]
    · rw [if_neg (by simp [hg])] at h1 ⊢
      exact ih _ h1

/-- C9 witness: a single malformed `patients.json` aborts with the error. -/
theorem c9_deserialization_error_aborts_witness :
    processFiles (fun _ => []) [⟨"patients.json", Except.error "Invalid JSON"⟩]
      = ([], some "Invalid JSON") :=
  c9_deserialization_error_aborts (fun _ => []) [] [] _ [] _ rfl (by decide) rfl

/-! ### Claim C10 -/

/-- C10: on every snapshot document set and live document set, the reduced
`loadBackup` of `src/scripts/backup.js` computes the same `toInsert` and
`toDelete` sets as the extended `loadBackup` of `src/unnamed/part_000`, and
issues exactly the bulk insert/delete operations of the extended variant
(which additionally issues the update operations). -/
theorem c10_variants_agree (n e : List Doc) :
    toInsertB n e = toInsert n e ∧ toDeleteB n e = toDelete n e ∧
    reconcileOpsB n e = (reconcileOps n e).filter isBulkOp := by
  refine ⟨rfl, rfl, ?_⟩
  have hupd : ∀ tu : List Doc,
      (tu.map (fun d => Op.updateOne d._id d.fields)).filter isBulkOp = [] := by
    intro tu
    induction tu with
    | nil => rfl
    | cons a t ih => simp [isBulkOp, ih]
  have e1 : toInsertB n e = toInsert n e := rfl
  have e2 : toDeleteB n e = toDelete n e := rfl
  rw [reconcileOps_eq]
  simp only [reconcileOpsB, e1, e2]
  cases h1 : (toInsert n e).isEmpty <;> cases h2 : (toDelete n e).isEmpty <;>
    simp [h1, h2, List.filter_append, hupd, isBulkOp]

/-! ### Claim C1 -/

/-- Whether an operation is an update targeting the identifier `i`. -/
def isUpdateFor (i : String) : Op → Bool
  | Op.updateOne (some j) _ => j == i
  | _ => false

/-- Whether an operation mentions the identifier `i`: a bulk insert carrying
a document with that identifier, a bulk delete listing it, or an update
targeting it. -/
def opTouches (i : String) : Op → Bool
  | Op.insertMany ds => ds.any (fun d => d._id == some i)
  | Op.deleteMany ids => ids.contains (some i)
  | Op.updateOne j _ => j == some i

/-- C1: when identifier `i` is carried by snapshot document `s` and live
document `l` whose non-identifier content differs, `loadBackup` issues
exactly one update targeting `i`, and its `$set` payload is exactly the
imported document's non-identifier fields. -/
theorem c1_one_targeted_update (n e : List Doc) (s l : Doc) (i : String)
    (hn : (n.filterMap Doc._id).Nodup) (he : (e.filterMap Doc._id).Nodup)
    (hs : s ∈ n) (hsi : s._id = some i)
    (hl : l ∈ e) (hli : l._id = some i)
    (hdiff : l.fields ≠ s.fields) :
    (reconcileOps n e).filter (isUpdateFor i) = [Op.updateOne (some i) s.fields] := by
  have hfind : e.find? (fun x => x._id == some i) = some l := find_idEq_of_nodup he hl hli
  have hlne : l ≠ s := fun h => hdiff (by rw [h])
  have hmem : s ∈ toUpdate n e := by
    refine mem_toUpdate.mpr ⟨hs, l, ?_, hlne⟩
    rw [hsi]
    exact hfind
  have htu : (toUpdate n e).filter (fun d => d._id == some i) = [s] := by
    refine filter_idPred_eq_singleton _ (fun x hx => eq_of_beq hx) ?_ hmem hsi (by simp [hsi])
    exact hn.sublist (List.Sublist.filterMap Doc._id (List.filter_sublist n))
  have hins : List.filter (isUpdateFor i)
      (if (toInsert n e).isEmpty then [] else [Op.insertMany (toInsert n e)]) = [] := by
    cases h : (toInsert n e).isEmpty <;> simp [isUpdateFor]
  have hdel : List.filter (isUpdateFor i)
      (if (toDelete n e).isEmpty then [] else
        [Op.deleteMany ((toDelete n e).map Doc._id)]) = [] := by
    cases h : (toDelete n e).isEmpty <;> simp [isUpdateFor]
  have hmapfil : ((toUpdate n e).map (fun d => Op.updateOne d._id d.fields)).filter
        (isUpdateFor i)
      = ((toUpdate n e).filter (fun d => d._id == some i)).map
          (fun d => Op.updateOne d._id d.fields) := by
    rw [List.filter_map]
    congr 1
    apply List.filter_congr
    intro x _
    show isUpdateFor i (Op.updateOne x._id x.fields) = (x._id == some i)
    cases hxi : x._id <;> rfl
  rw [reconcileOps_eq, List.filter_append, List.filter_append, hins, hdel, hmapfil, htu]
  simp [hsi]

/-- C1 witness: the spec's Scenario A (one changed field). -/
theorem c1_one_targeted_update_witness :
    (reconcileOps [Doc.mk (some "1") [("name", "John"), ("age", "26")]]
        [Doc.mk (some "1") [("name", "John"), ("age", "25")]]).filter (isUpdateFor "1")
      = [Op.updateOne (some "1") [("name", "John"), ("age", "26")]] :=
  c1_one_targeted_update _ _ (Doc.mk (some "1") [("name", "John"), ("age", "26")])
    (Doc.mk (some "1") [("name", "John"), ("age", "25")]) "1"
    (by decide) (by decide) (by decide) rfl (by decide) rfl (by decide)

/-! ### Claim C4 -/

/-- C4 counterexample: the empty string is a possible identifier, and a
document with identifier `""` present identically in both sets is still
classified for insertion and deletion, because `filter(Boolean)` drops the
empty string from the identifier lists. -/
theorem c4_empty_id_counterexample :
    Doc.mk (some "") [("name", "x")]
        ∈ toInsert [Doc.mk (some "") [("name", "x")]] [Doc.mk (some "") [("name", "x")]] ∧
    Doc.mk (some "") [("name", "x")]
        ∈ toDelete [Doc.mk (some "") [("name", "x")]] [Doc.mk (some "") [("name", "x")]] := by
  constructor <;> decide

/-- C4 (amended): for every identifier with non-empty (truthy) string form
present in both sets with identical non-identifier content, the document is
in none of `toInsert`/`toUpdate`/`toDelete` and no issued operation mentions
the identifier. -/
theorem c4_identical_untouched (n e : List Doc) (s l : Doc) (i : String)
    (hne : i ≠ "")
    (hn : (n.filterMap Doc._id).Nodup) (he : (e.filterMap Doc._id).Nodup)
    (hs : s ∈ n) (hsi : s._id = some i)
    (hl : l ∈ e) (hli : l._id = some i)
    (hsame : l.fields = s.fields) :
    s ∉ toInsert n e ∧ l ∉ toDelete n e ∧ s ∉ toUpdate n e ∧
      ∀ op ∈ reconcileOps n e, opTouches i op = false := by
  have hls : l = s := by
    obtain ⟨li, lf⟩ := l
    obtain ⟨si, sf⟩ := s
    simp only at hli hsi hsame
    rw [hli, hsi, hsame]
  have hIe : i ∈ filterIds e := mem_filterIds.mpr ⟨⟨l, hl, hli⟩, hne⟩
  have hIn : i ∈ filterIds n := mem_filterIds.mpr ⟨⟨s, hs, hsi⟩, hne⟩
  have hnotIns : s ∉ toInsert n e := by
    intro h
    have hinc := (mem_toInsert.mp h).2
    rw [hsi, includesOpt_some_iff.mpr hIe] at hinc
    cases hinc
  have hnotDel : l ∉ toDelete n e := by
    intro h
    have hinc := (mem_toDelete.mp h).2
    rw [hli, includesOpt_some_iff.mpr hIn] at hinc
    cases hinc
  have hnotUpd : s ∉ toUpdate n e := by
    intro h
    rcases (mem_toUpdate.mp h).2 with ⟨m, hfind', hm⟩
    rw [hsi, find_idEq_of_nodup he hl hli] at hfind'
    cases hfind'
    exact hm hls
  refine ⟨hnotIns, hnotDel, hnotUpd, ?_⟩
  intro op hop
  rw [reconcileOps_eq] at hop
  rcases List.mem_append.mp hop with hop1 | hop2
  · rcases List.mem_append.mp hop1 with hopi | hopd
    · cases hie : (toInsert n e).isEmpty with
      | true => rw [hie] at hopi; cases hopi
      | false =>
        rw [hie] at hopi
        rcases List.mem_singleton.mp hopi with rfl
        show (toInsert n e).any (fun d => d._id == some i) = false
        rw [List.any_eq_false]
        intro x hx hxi
        have hxid : x._id = some i := eq_of_beq hxi
        have : x = s := nodupIds_eq_of_mem hn (mem_toInsert.mp hx).1 hxid hs hsi
        rw [this] at hx
        exact hnotIns hx
    · cases hde : (toDelete n e).isEmpty with
      | true => rw [hde] at hopd; cases hopd
      | false =>
        rw [hde] at hopd
        rcases List.mem_singleton.mp hopd with rfl
        show ((toDelete n e).map Doc._id).contains (some i) = false
        cases hcc : ((toDelete n e).map Doc._id).contains (some i) with
        | false => rfl
        | true =>
          rcases List.mem_map.mp (List.elem_iff.mp hcc) with ⟨x, hx, hxe⟩
          have : x = l := nodupIds_eq_of_mem he (mem_toDelete.mp hx).1 hxe hl hli
          rw [this] at hx
          exact absurd hx hnotDel
  · rcases List.mem_map.mp hop2 with ⟨x, hx, rfl⟩
    show (x._id == some i) = false
    cases hxb : (x._id == some i) with
    | false => rfl
    | true =>
      have hxid : x._id = some i := eq_of_beq hxb
      have : x = s := nodupIds_eq_of_mem hn (mem_toUpdate.mp hx).1 hxid hs hsi
      rw [this] at hx
      exact absurd hx hnotUpd

/-- C4 witness: the spec's Scenario D (identical one-document sets). -/
theorem c4_identical_untouched_witness :
    Doc.mk (some "1") [("name", "John"), ("age", "25")]
        ∉ toInsert [Doc.mk (some "1") [("name", "John"), ("age", "25")]]
            [Doc.mk (some "1") [("name", "John"), ("age", "25")]] ∧
    Doc.mk (some "1") [("name", "John"), ("age", "25")]
        ∉ toDelete [Doc.mk (some "1") [("name", "John"), ("age", "25")]]
            [Doc.mk (some "1") [("name", "John"), ("age", "25")]] ∧
    Doc.mk (some "1") [("name", "John"), ("age", "25")]
        ∉ toUpdate [Doc.mk (some "1") [("name", "John"), ("age", "25")]]
            [Doc.mk (some "1") [("name", "John"), ("age", "25")]] :=
  have h := c4_identical_untouched _ _ _ _ "1" (by decide) (by decide) (by decide)
    (by decide) rfl (by decide) rfl rfl
  ⟨h.1, h.2.1, h.2.2.1⟩

/-! ### Claim C5 -/

/-- C5: a snapshot document `s` whose identifier is carried by no live
document lands in `toInsert` exactly once, and the issued bulk insert
carries `toInsert` verbatim (hence `s` itself, original identifier
included). -/
theorem c5_snapshot_only_inserted (n e : List Doc) (s : Doc) (i : String)
    (hn : (n.filterMap Doc._id).Nodup)
    (hs : s ∈ n) (hsi : s._id = some i)
    (habs : ∀ l ∈ e, l._id ≠ some i) :
    (toInsert n e).filter (fun d => d._id == some i) = [s] ∧
    Op.insertMany (toInsert n e) ∈ reconcileOps n e := by
  have hninc : includesOpt (filterIds e) (some i) = false := by
    cases h : includesOpt (filterIds e) (some i) with
    | false => rfl
    | true =>
      rcases (mem_filterIds.mp (includesOpt_some_iff.mp h)).1 with ⟨l, hl, hli⟩
      exact absurd hli (habs l hl)
  have hmem : s ∈ toInsert n e := by
    refine mem_toInsert.mpr ⟨hs, ?_⟩
    rw [hsi]
    exact hninc
  refine ⟨?_, ?_⟩
  · refine filter_idPred_eq_singleton _ (fun x hx => eq_of_beq hx) ?_ hmem hsi (by simp [hsi])
    exact hn.sublist (List.Sublist.filterMap Doc._id (List.filter_sublist n))
  · have hie : (toInsert n e).isEmpty = false := by
      cases hh : (toInsert n e).isEmpty with
      | false => rfl
      | true =>
        rw [List.isEmpty_iff.mp hh] at hmem
        cases hmem
    rw [reconcileOps_eq, hie]
    simp

/-- C5 witness: the spec's Scenario B (one missing document). -/
theorem c5_snapshot_only_inserted_witness :
    (toInsert [Doc.mk (some "2") [("name", "Jane"), ("age", "28")]]
        [Doc.mk (some "1") [("name", "John"), ("age", "25")]]).filter
        (fun d => d._id == some "2")
      = [Doc.mk (some "2") [("name", "Jane"), ("age", "28")]] ∧
    Op.insertMany (toInsert [Doc.mk (some "2") [("name", "Jane"), ("age", "28")]]
        [Doc.mk (some "1") [("name", "John"), ("age", "25")]])
      ∈ reconcileOps [Doc.mk (some "2") [("name", "Jane"), ("age", "28")]]
          [Doc.mk (some "1") [("name", "John"), ("age", "25")]] :=
  c5_snapshot_only_inserted _ _ _ _ (by decide) (by decide) rfl (by decide)

/-! ### Claim C6 -/

/-- C6: a live document `l` whose identifier is carried by no snapshot
document lands in `toDelete` exactly once; the bulk delete of `toDelete`'s
raw identifiers is issued, and applying it keeps exactly the live documents
whose identifier is not an identifier of a `toDelete` document. -/
theorem c6_live_only_deleted (n e : List Doc) (l : Doc) (i : String)
    (he : (e.filterMap Doc._id).Nodup)
    (hl : l ∈ e) (hli : l._id = some i)
    (habs : ∀ s ∈ n, s._id ≠ some i) :
    (toDelete n e).filter (fun d => d._id == some i) = [l] ∧
    Op.deleteMany ((toDelete n e).map Doc._id) ∈ reconcileOps n e ∧
    ∀ d, d ∈ applyOp e (Op.deleteMany ((toDelete n e).map Doc._id)) ↔
      d ∈ e ∧ ¬∃ x ∈ toDelete n e, x._id = d._id := by
  have hninc : includesOpt (filterIds n) (some i) = false := by
    cases h : includesOpt (filterIds n) (some i) with
    | false => rfl
    | true =>
      rcases (mem_filterIds.mp (includesOpt_some_iff.mp h)).1 with ⟨x, hx, hxi⟩
      exact absurd hxi (habs x hx)
  have hmem : l ∈ toDelete n e := by
    refine mem_toDelete.mpr ⟨hl, ?_⟩
    rw [hli]
    exact hninc
  refine ⟨?_, ?_, ?_⟩
  · refine filter_idPred_eq_singleton _ (fun x hx => eq_of_beq hx) ?_ hmem hli (by simp [hli])
    exact he.sublist (List.Sublist.filterMap Doc._id (List.filter_sublist e))
  · have hde : (toDelete n e).isEmpty = false := by
      cases hh : (toDelete n e).isEmpty with
      | false => rfl
      | true =>
        rw [List.isEmpty_iff.mp hh] at hmem
        cases hmem
    rw [reconcileOps_eq, hde]
    cases hie : (toInsert n e).isEmpty <;> simp
  · intro d
    show d ∈ e.filter (fun x => !(((toDelete n e).map Doc._id).contains x._id)) ↔ _
    constructor
    · intro hd
      rcases List.mem_filter.mp hd with ⟨hde, hc⟩
      refine ⟨hde, fun hex => ?_⟩
      rcases hex with ⟨x, hx, hxe⟩
      have : ((toDelete n e).map Doc._id).contains d._id = true :=
        List.elem_iff.mpr (List.mem_map.mpr ⟨x, hx, hxe⟩)
      rw [this] at hc
      cases hc
    · rintro ⟨hde, hnx⟩
      refine List.mem_filter.mpr ⟨hde, ?_⟩
      cases hcc : ((toDelete n e).map Doc._id).contains d._id with
      | false => rfl
      | true =>
        rcases List.mem_map.mp (List.elem_iff.mp hcc) with ⟨x, hx, hxe⟩
        exact absurd ⟨x, hx, hxe⟩ hnx

/-- C6 witness: the spec's Scenario C (empty snapshot deletes the one live
document); the application conjunct is instanced at that document. -/
theorem c6_live_only_deleted_witness :
    (toDelete [] [Doc.mk (some "1") [("name", "John"), ("age", "25")]]).filter
        (fun d => d._id == some "1")
      = [Doc.mk (some "1") [("name", "John"), ("age", "25")]] ∧
    Op.deleteMany ((toDelete [] [Doc.mk (some "1") [("name", "John"), ("age", "25")]]).map
        Doc._id)
      ∈ reconcileOps [] [Doc.mk (some "1") [("name", "John"), ("age", "25")]] ∧
    (Doc.mk (some "1") [("name", "John"), ("age", "25")]
        ∈ applyOp [Doc.mk (some "1") [("name", "John"), ("age", "25")]]
          (Op.deleteMany
            ((toDelete [] [Doc.mk (some "1") [("name", "John"), ("age", "25")]]).map Doc._id))
      ↔ Doc.mk (some "1") [("name", "John"), ("age", "25")]
          ∈ [Doc.mk (some "1") [("name", "John"), ("age", "25")]]
        ∧ ¬∃ x ∈ toDelete [] [Doc.mk (some "1") [("name", "John"), ("age", "25")]],
            x._id = (Doc.mk (some "1") [("name", "John"), ("age", "25")])._id) :=
  have h := c6_live_only_deleted [] _ _ "1" (by decide) (by decide) rfl (by decide)
  ⟨h.1, h.2.1, h.2.2 _⟩

/-! ### Claim C3 -/

/-- The update pass of `loadBackup`: one `updateOne` per `toUpdate` document,
in order. -/
def applyUpdates (docs : List Doc) (tu : List Doc) : List Doc :=
  tu.foldl (fun acc d => applyUpdateOne acc d._id d.fields) docs

theorem applyOps_append (x : List Doc) (l₁ l₂ : List Op) :
    applyOps x (l₁ ++ l₂) = applyOps (applyOps x l₁) l₂ := by
  unfold applyOps
  rw [List.foldl_append]

theorem applyOps_insert_if (e ti : List Doc) :
    applyOps e (if ti.isEmpty then [] else [Op.insertMany ti]) = e ++ ti := by
  cases h : ti.isEmpty with
  | true => simp [applyOps, List.isEmpty_iff.mp h]
  | false => rfl

theorem applyOps_delete_if (x : List Doc) (td : List Doc) :
    applyOps x (if td.isEmpty then [] else [Op.deleteMany (td.map Doc._id)])
      = x.filter (fun d => !((td.map Doc._id).contains d._id)) := by
  cases h : td.isEmpty with
  | true =>
    rw [List.isEmpty_iff.mp h]
    exact (List.filter_eq_self.mpr (fun a _ => rfl)).symm
  | false => rfl

theorem applyOps_updates (x : List Doc) (tu : List Doc) :
    applyOps x (tu.map (fun d => Op.updateOne d._id d.fields)) = applyUpdates x tu := by
  unfold applyOps applyUpdates
  rw [List.foldl_map]
  rfl

/-- The state after one reconcile pass: inserts appended, deletions filtered
out, then the update loop. -/
theorem runReconcile_state (n e : List Doc) :
    (runReconcile n e).2 =
      applyUpdates ((e ++ toInsert n e).filter
        (fun d => !(((toDelete n e).map Doc._id).contains d._id))) (toUpdate n e) := by
  show applyOps e (reconcileOps n e) = _
  rw [reconcileOps_eq, applyOps_append, applyOps_append, applyOps_insert_if,
    applyOps_delete_if, applyOps_updates]

theorem applyUpdateOne_map_id (docs : List Doc) (i : Option String)
    (p : List (String × String)) :
    (applyUpdateOne docs i p).map Doc._id = docs.map Doc._id := by
  induction docs with
  | nil => rfl
  | cons d rest ih =>
    unfold applyUpdateOne
    by_cases h : (d._id == i) = true
    · rw [if_pos h]
      simp
    · rw [if_neg h]
      simp [ih]

theorem applyUpdates_map_id (x : List Doc) (tu : List Doc) :
    (applyUpdates x tu).map Doc._id = x.map Doc._id := by
  induction tu generalizing x with
  | nil => rfl
  | cons d t ih =>
    show (applyUpdates (applyUpdateOne x d._id d.fields) t).map Doc._id = _
    rw [ih, applyUpdateOne_map_id]

theorem contains_id_iff {l : List Doc} {o : Option String} :
    ((l.map Doc._id).contains o) = true ↔ ∃ x ∈ l, x._id = o := by
  constructor
  · intro h
    exact List.mem_map.mp (List.elem_iff.mp h)
  · intro h
    exact List.elem_iff.mpr (List.mem_map.mpr h)

/-- C3 counterexample: a live document with a live-only field `b`.  The
first run issues `updateOne({_id}, {$set: {a: "1"}})`, which cannot remove
`b`, so the live document still differs and the second run issues the same
update again — not zero operations. -/
theorem c3_idempotence_counterexample :
    reconcileOps [Doc.mk (some "1") [("a", "1")]]
        ((runReconcile [Doc.mk (some "1") [("a", "1")]]
          [Doc.mk (some "1") [("a", "1"), ("b", "2")]]).2)
      = [Op.updateOne (some "1") [("a", "1")]] := by
  decide

/-- C3 (amended): when every snapshot document carries a truthy identifier,
a second reconcile run of the same snapshot against the state produced by
the first run issues zero inserts and zero deletes; every operation it can
still issue is an update (updates are not guaranteed to vanish, because a
`$set` of the imported fields cannot remove live-only fields). -/
theorem c3_second_run_no_bulk (n e : List Doc)
    (hn : ∀ d ∈ n, truthyId d._id = true) :
    toInsert n (runReconcile n e).2 = [] ∧
    toDelete n (runReconcile n e).2 = [] ∧
    ∀ op ∈ reconcileOps n (runReconcile n e).2, isBulkOp op = false := by
  set e₁ := (runReconcile n e).2 with he₁
  have hmap : e₁.map Doc._id =
      ((e ++ toInsert n e).filter
        (fun d => !(((toDelete n e).map Doc._id).contains d._id))).map Doc._id := by
    rw [he₁, runReconcile_state, applyUpdates_map_id]
  -- a document's truthy identifier read off `hn`
  have hids : ∀ d ∈ n, ∃ s, d._id = some s ∧ s ≠ "" := by
    intro d hd
    cases hdi : d._id with
    | none => exact absurd (hn d hd) (by rw [hdi]; simp [truthyId])
    | some s =>
      refine ⟨s, rfl, ?_⟩
      have := hn d hd
      rw [hdi] at this
      simpa [truthyId] using this
  have h1 : toInsert n e₁ = [] := by
    rw [toInsert, List.filter_eq_nil_iff]
    intro d hd hcon
    rcases hids d hd with ⟨s, hdi, hs⟩
    have hin : includesOpt (filterIds e₁) d._id = true := by
      rw [hdi, includesOpt_some_iff, mem_filterIds]
      refine ⟨?_, hs⟩
      have hsurv : ∃ y ∈ (e ++ toInsert n e).filter
          (fun x => !(((toDelete n e).map Doc._id).contains x._id)), y._id = some s := by
        cases hlive : includesOpt (filterIds e) (some s) with
        | true =>
          rcases (mem_filterIds.mp (includesOpt_some_iff.mp hlive)).1 with ⟨l, hl, hli⟩
          refine ⟨l, List.mem_filter.mpr ⟨List.mem_append.mpr (Or.inl hl), ?_⟩, hli⟩
          cases hcc : ((toDelete n e).map Doc._id).contains l._id with
          | false => rfl
          | true =>
            rcases contains_id_iff.mp hcc with ⟨x, hx, hxe⟩
            have hxdel := (mem_toDelete.mp hx).2
            rw [hxe, hli, includesOpt_some_iff.mpr
              (mem_filterIds.mpr ⟨⟨d, hd, hdi⟩, hs⟩)] at hxdel
            cases hxdel
        | false =>
          have hdins : d ∈ toInsert n e := mem_toInsert.mpr ⟨hd, by rw [hdi]; exact hlive⟩
          refine ⟨d, List.mem_filter.mpr ⟨List.mem_append.mpr (Or.inr hdins), ?_⟩, hdi⟩
          cases hcc : ((toDelete n e).map Doc._id).contains d._id with
          | false => rfl
          | true =>
            rcases contains_id_iff.mp hcc with ⟨x, hx, hxe⟩
            have hxdel := (mem_toDelete.mp hx).2
            rw [hxe, hdi, includesOpt_some_iff.mpr
              (mem_filterIds.mpr ⟨⟨d, hd, hdi⟩, hs⟩)] at hxdel
            cases hxdel
      rcases hsurv with ⟨y, hy, hye⟩
      have : y._id ∈ e₁.map Doc._id := by
        rw [hmap]
        exact List.mem_map.mpr ⟨y, hy, rfl⟩
      rcases List.mem_map.mp this with ⟨z, hz, hze⟩
      exact ⟨z, hz, by rw [hze, hye]⟩
    rw [hin] at hcon
    cases hcon
  have h2 : toDelete n e₁ = [] := by
    rw [toDelete, List.filter_eq_nil_iff]
    intro x hx hcon
    have : x._id ∈ ((e ++ toInsert n e).filter
        (fun d => !(((toDelete n e).map Doc._id).contains d._id))).map Doc._id := by
      rw [← hmap]
      exact List.mem_map.mpr ⟨x, hx, rfl⟩
    rcases List.mem_map.mp this with ⟨y, hy, hye⟩
    rcases List.mem_filter.mp hy with ⟨hymem, hypred⟩
    have hyin : includesOpt (filterIds n) y._id = true := by
      rcases List.mem_append.mp hymem with hye2 | hyti
      · cases hyc : includesOpt (filterIds n) y._id with
        | true => rfl
        | false =>
          have hydel : y ∈ toDelete n e := mem_toDelete.mpr ⟨hye2, hyc⟩
          have : ((toDelete n e).map Doc._id).contains y._id = true :=
            contains_id_iff.mpr ⟨y, hydel, rfl⟩
          rw [this] at hypred
          cases hypred
      · have hyn : y ∈ n := (mem_toInsert.mp hyti).1
        rcases hids y hyn with ⟨t, hyt, ht⟩
        rw [hyt, includesOpt_some_iff]
        exact mem_filterIds.mpr ⟨⟨y, hyn, hyt⟩, ht⟩
    rw [← hye, hyin] at hcon
    cases hcon
  refine ⟨h1, h2, ?_⟩
  intro op hop
  rw [reconcileOps_eq, h1, h2] at hop
  simp only [List.isEmpty_nil, if_true, List.nil_append] at hop
  rcases List.mem_map.mp hop with ⟨x, _, rfl⟩
  rfl

/-- C3 witness: the spec's Scenario A state after one run accepts the
snapshot with no further bulk operations. -/
theorem c3_second_run_no_bulk_witness :
    toInsert [Doc.mk (some "1") [("name", "John"), ("age", "26")]]
        (runReconcile [Doc.mk (some "1") [("name", "John"), ("age", "26")]]
          [Doc.mk (some "1") [("name", "John"), ("age", "25")]]).2 = [] ∧
    toDelete [Doc.mk (some "1") [("name", "John"), ("age", "26")]]
        (runReconcile [Doc.mk (some "1") [("name", "John"), ("age", "26")]]
          [Doc.mk (some "1") [("name", "John"), ("age", "25")]]).2 = [] ∧
    ∀ op ∈ reconcileOps [Doc.mk (some "1") [("name", "John"), ("age", "26")]]
        (runReconcile [Doc.mk (some "1") [("name", "John"), ("age", "26")]]
          [Doc.mk (some "1") [("name", "John"), ("age", "25")]]).2,
      isBulkOp op = false :=
  c3_second_run_no_bulk _ _ (by decide)

/-! ### Claim C2 -/

theorem lex_append_left (p : List Char) {u v : List Char}
    (h : List.Lex (· < ·) u v) : List.Lex (· < ·) (p ++ u) (p ++ v) := by
  induction p with
  | nil => exact h
  | cons c cs ih => exact List.Lex.cons ih

theorem lex_append_of_lex {x y : List Char} (h : List.Lex (· < ·) x y) :
    ∀ (u v : List Char), x.length = y.length → List.Lex (· < ·) (x ++ u) (y ++ v) := by
  induction h with
  | nil =>
    intro u v hlen
    simp at hlen
  | cons h ih =>
    intro u v hlen
    exact List.Lex.cons (ih u v (by simpa using hlen))
  | rel h =>
    intro u v _
    exact List.Lex.rel h

/-- Every two-digit component of a timestamp (`mm ≤ 12`, `dd ≤ 31`,
`hh ≤ 23`, `min`/`ss ≤ 59`) pads to exactly two characters. -/
theorem pad2_length : ∀ n < 60, (pad2 n).toList.length = 2 := by decide

/-- On the component range, zero-padding makes the numeric order coincide
with the code-unit lexicographic order. -/
theorem pad2_mono : ∀ n < 60, ∀ m < 60, n < m → (pad2 n).toList < (pad2 m).toList := by
  decide

/-- C2 counterexample: the generated name embeds month and day before the
year (`backup_MMDDYYYY_HHMMSS`), so across a year boundary a chronologically
later instant yields a lexicographically smaller name, and the selector (sort
then take the last element) returns the chronologically older snapshot. -/
theorem c2_lex_order_counterexample :
    chronoLT (DateT.mk 11 31 2025 23 59 59) (DateT.mk 0 1 2026 0 0 0) ∧
    getTimestamp (DateT.mk 0 1 2026 0 0 0)
      < getTimestamp (DateT.mk 11 31 2025 23 59 59) ∧
    selectLatest [DirEnt.mk (getTimestamp (DateT.mk 11 31 2025 23 59 59)) true,
        DirEnt.mk (getTimestamp (DateT.mk 0 1 2026 0 0 0)) true]
      = some (getTimestamp (DateT.mk 11 31 2025 23 59 59)) := by
  refine ⟨by decide, ?_, by decide⟩
  rw [String.lt_iff_toList_lt]
  decide

/-- C2 (amended): within one calendar year, a chronologically later instant
with valid calendar components always yields a lexicographically greater
snapshot name; only across year boundaries can the order invert. -/
theorem c2_same_year_lex_monotone (a b : DateT)
    (ha : validDate a) (hb : validDate b)
    (hy : a.getFullYear = b.getFullYear)
    (hab : chronoLT a b) : getTimestamp a < getTimestamp b := by
  obtain ⟨ham, had, hah, hami, has⟩ := ha
  obtain ⟨hbm, hbd, hbh, hbmi, hbs⟩ := hb
  rw [String.lt_iff_toList_lt]
  have htl : ∀ (s t : String), (s ++ t).toList = s.toList ++ t.toList := fun _ _ => rfl
  simp only [getTimestamp, htl, List.append_assoc]
  show List.Lex (· < ·) _ _
  apply lex_append_left
  rcases hab with hylt | ⟨_, hrest⟩
  · exact absurd hylt (by omega)
  rcases hrest with hm | ⟨hmeq, hrest⟩
  · exact lex_append_of_lex
      (pad2_mono _ (by omega) _ (by omega) (by omega)) _ _
      (by rw [pad2_length (a.getMonth + 1) (by omega),
        pad2_length (b.getMonth + 1) (by omega)])
  rw [hmeq]
  apply lex_append_left
  rcases hrest with hd | ⟨hdeq, hrest⟩
  · exact lex_append_of_lex
      (pad2_mono _ (by omega) _ (by omega) hd) _ _
      (by rw [pad2_length a.getDate (by omega), pad2_length b.getDate (by omega)])
  rw [hdeq, hy]
  apply lex_append_left
  apply lex_append_left
  apply lex_append_left
  rcases hrest with hh | ⟨hheq, hrest⟩
  · exact lex_append_of_lex
      (pad2_mono _ (by omega) _ (by omega) hh) _ _
      (by rw [pad2_length a.getHours (by omega), pad2_length b.getHours (by omega)])
  rw [hheq]
  apply lex_append_left
  rcases hrest with hmi | ⟨hmieq, hsec⟩
  · exact lex_append_of_lex
      (pad2_mono _ (by omega) _ (by omega) hmi) _ _
      (by rw [pad2_length a.getMinutes (by omega), pad2_length b.getMinutes (by omega)])
  rw [hmieq]
  apply lex_append_left
  exact pad2_mono _ (by omega) _ (by omega) hsec

/-- C2 witness: two instants one second apart in the same year. -/
theorem c2_same_year_lex_monotone_witness :
    getTimestamp (DateT.mk 9 28 2025 2 38 11) < getTimestamp (DateT.mk 9 28 2025 2 38 12) :=
  c2_same_year_lex_monotone _ _ (by decide) (by decide) rfl (by decide)

end Dentabase
